import Mathlib

/-!
Verification development for the sysmon-pstree repository
(`src/sysmon2tree.py` and `src/sysmon_csv_tree.py`).

The two Python scripts share one core: a process registry (a Python dict
keyed by pid), a tree builder (`_build_tree`), a root classifier
(`get_root_processes`), a depth-first HTML renderer (`_gen_proc_html` /
`_gen_tree_html`) and an HTML escaping helper (`_esc`).  The definitions
below are a shallow embedding of that core, translated directly from the
source.  Python dicts are modelled as association lists with
insertion-order iteration and replace-in-place update (CPython dict
semantics); Python strings are Lean `String`s (both compare
lexicographically by code point); Python `int(...)` on a string is
modelled by `pyInt`; code that can raise and is guarded by a bare
`except: pass` is modelled with `Option`.
-/

set_option maxRecDepth 4000

/-! ## Python dict model (insertion-ordered, replace-in-place update) -/

/-- `d[k] = v` on a CPython dict: if the key exists its value is replaced
in place (iteration position preserved), otherwise the pair is appended. -/
def dinsert {α β : Type} [DecidableEq α] : List (α × β) → α → β → List (α × β)
  | [], k, v => [(k, v)]
  | e :: rest, k, v => if e.1 = k then (k, v) :: rest else e :: dinsert rest k v

/-- `d.get(k)`: first (and, for dict-built lists, only) entry with key `k`. -/
def dget {α β : Type} [DecidableEq α] : List (α × β) → α → Option β
  | [], _ => none
  | e :: rest, k => if e.1 = k then some e.2 else dget rest k

/-- The iteration-order key list of a dict. -/
def dkeys {α β : Type} (m : List (α × β)) : List α := m.map Prod.fst

/-! ## Character-level model of Python `str.replace` with one-char pattern -/

/-- `t.replace(c, r)` for a single-character pattern `c`: every occurrence
of `c` is replaced by the string `r`, all other characters are kept. -/
def replaceChar (c : Char) (r : List Char) : List Char → List Char
  | [] => []
  | x :: xs => (if x = c then r else [x]) ++ replaceChar c r xs

/-- `SysmonParser._esc` / `SysmonCSVParser._esc` (identical in both files):
`if not t: return ""` then
`t.replace('&','&amp;').replace('<','&lt;').replace('>','&gt;').replace('"','&quot;')`. -/
def esc (t : String) : String :=
  if t = "" then ""
  else ⟨replaceChar '"' "&quot;".data
         (replaceChar '>' "&gt;".data
           (replaceChar '<' "&lt;".data
             (replaceChar '&' "&amp;".data t.data)))⟩

/-- The apostrophe character (code point 39). -/
def apos : Char := Char.ofNat 39

/-- Character-wise description of what `_esc` actually does: the four
characters `&`, `<`, `>`, `"` become entities; every other character
(the apostrophe included) passes through unchanged. -/
def escEntity (c : Char) : List Char :=
  if c = '&' then "&amp;".data
  else if c = '<' then "&lt;".data
  else if c = '>' then "&gt;".data
  else if c = '"' then "&quot;".data
  else [c]

/-! ## The process record (`ProcessInfo.__init__`, identical in both files) -/

/-- `ProcessInfo`: pid, name, ppid (Python `None` = `none`; note a decoded
`0` is stored as `some 0`, not `none`), command line, current directory,
user, timestamp, and the child-pid list filled in by `_build_tree`. -/
structure ProcessInfo where
  pid : Int
  name : String
  ppid : Option Int
  command_line : String
  current_directory : String
  user : String
  timestamp : String
  children : List Int
deriving Repr, DecidableEq

/-- The registry `self.processes`: a dict from pid to `ProcessInfo`. -/
abbrev Reg := List (Int × ProcessInfo)

/-- Python truthiness of `proc.ppid` as used in `_build_tree`
(`if proc.ppid and ...`): `None` and `0` are falsy. -/
def truthyPpid (r : ProcessInfo) : Option Int :=
  match r.ppid with
  | none => none
  | some q => if q = 0 then none else some q

/-- The child list `_build_tree` leaves on the entry with key `k`:
every registry entry (in iteration order) whose truthy ppid equals `k`
contributes its key (`self.processes[proc.ppid].children.append(pid)`). -/
def childrenOf (m : Reg) (k : Int) : List Int :=
  m.filterMap (fun e => if truthyPpid e.2 = some k then some e.1 else none)

/-- `_build_tree` (identical in both files): after all insertions, each
entry's `children` is the list of keys whose truthy ppid points at it. -/
def buildTree (m : Reg) : Reg :=
  m.map (fun e => (e.1, { e.2 with children := childrenOf m e.1 }))

/-- The root test of `get_root_processes`:
`p.ppid is None or p.ppid not in self.processes`. -/
def rootCond (m : Reg) (r : ProcessInfo) : Bool :=
  match r.ppid with
  | none => true
  | some q => (dget m q).isNone

/-! ## Python `list.sort(key=...)`: a stable ascending sort by a string key -/

/-- Lexicographic comparison of character lists by code point: the
comparison Python applies to `str` values (used for the timestamp sort
keys).  Executable so that concrete runs reduce in the kernel. -/
def lexLt : List Char → List Char → Bool
  | [], [] => false
  | [], _ :: _ => true
  | _ :: _, [] => false
  | a :: as, b :: bs => if a < b then true else if b < a then false else lexLt as bs

/-- Python `<` on strings. -/
def strLt (a b : String) : Bool := lexLt a.data b.data

/-- Insert `x` into `s` in front of the first element whose key is not
smaller: the unique placement of a stable ascending insertion. -/
def insSorted {α : Type} (key : α → String) (x : α) : List α → List α
  | [] => [x]
  | y :: ys => if strLt (key y) (key x) then y :: insSorted key x ys else x :: y :: ys

/-- Stable ascending sort by a string key: the semantics of Python
`lst.sort(key=lambda x: ...)` (Timsort is stable and ascending, which
determines the output uniquely). -/
def sortByKey {α : Type} (key : α → String) : List α → List α
  | [] => []
  | x :: xs => insSorted key x (sortByKey key xs)

/-- `get_root_processes` (identical in both files):
`[p for p in self.processes.values() if p.ppid is None or p.ppid not in self.processes]`
sorted stably by `x.timestamp`. -/
def get_root_processes (m : Reg) : List ProcessInfo :=
  sortByKey (fun x => x.timestamp) ((m.map Prod.snd).filter (rootCond m))

/-! ## Python `int(...)` on a string -/

/-- Valid digit tail of a Python integer literal: digits with single
underscores allowed between digits. -/
def pyDigitsTail : List Char → Bool
  | [] => true
  | '_' :: c :: rest => c.isDigit && pyDigitsTail rest
  | '_' :: [] => false
  | c :: rest => c.isDigit && pyDigitsTail rest

/-- Valid digit part: at least one digit, then `pyDigitsTail`. -/
def pyDigits : List Char → Bool
  | [] => false
  | c :: rest => c.isDigit && pyDigitsTail rest

/-- Numeric value of the digit characters (underscores skipped). -/
def digitsVal (cs : List Char) : Nat :=
  cs.foldl (fun n c => if c.isDigit then n * 10 + (c.toNat - '0'.toNat) else n) 0

/-- Python `int(s)` for a decimal string: optional surrounding whitespace,
optional sign, digits with single underscores between digits; raises
`ValueError` (= `none`) otherwise. -/
def pyInt (s : String) : Option Int :=
  let cs := (s.data.dropWhile Char.isWhitespace).reverse.dropWhile Char.isWhitespace |>.reverse
  match cs with
  | '-' :: rest => if pyDigits rest then some (-(digitsVal rest : Int)) else none
  | '+' :: rest => if pyDigits rest then some ((digitsVal rest : Int)) else none
  | rest => if pyDigits rest then some ((digitsVal rest : Int)) else none

/-- Python `s[:n]`: the first `n` characters (code points). -/
def strTake (s : String) (n : Nat) : String := ⟨s.data.take n⟩

/-- Python `c in s` for a single character. -/
def containsChar (s : String) (c : Char) : Bool := s.data.contains c

/-- Python `s.split(c)` for a single-character separator. -/
def splitOnChar (c : Char) : List Char → List (List Char)
  | [] => [[]]
  | x :: xs =>
    if x = c then [] :: splitOnChar c xs
    else
      match splitOnChar c xs with
      | [] => [[x]]
      | g :: gs => (x :: g) :: gs

/-! ## The two record decoders -/

/-- The `ProcessId` conversion shared by both extractors:
`pid = int(data.get("ProcessId", 0))` — an absent key defaults to the
integer `0`, a non-numeric value raises (`none`). -/
def decodePid (data : List (String × String)) : Option Int :=
  match dget data "ProcessId" with
  | none => some 0
  | some s => pyInt s

/-- The `ParentProcessId` conversion shared by both extractors:
`ppid = int(data.get("ParentProcessId", 0)) if data.get("ParentProcessId") else None`
— a missing or empty (falsy) value gives Python `None`, a non-numeric
value raises (outer `none`), anything else converts (note `"0"` converts
to the present value `0`, not to `None`). -/
def decodePpid (data : List (String × String)) : Option (Option Int) :=
  match dget data "ParentProcessId" with
  | none => some none
  | some s => if s = "" then some none else (pyInt s).map some

/-- One unit of the EVTX stream as seen by `parse_evtx` after
`ET.fromstring`: whether XML parsing succeeded, the `EventID` element
text (`none` when the element is missing or has no text), the
`(Name, text)` pairs of the `Data` elements (`""` standing for a missing
attribute or empty text, which Python treats alike as falsy), and the
`SystemTime` attribute of `TimeCreated` (`none` when the element is
missing; a missing attribute defaults to `""`). -/
structure EvtxUnit where
  parseOk : Bool
  eventId : Option String
  dataElems : List (String × String)
  systemTime : Option String
deriving Repr, DecidableEq

/-- The `data` dict built by `_extract_process_data`: Data elements with
truthy `Name` and truthy text, later entries overwriting earlier ones. -/
def evtxData (u : EvtxUnit) : List (String × String) :=
  u.dataElems.foldl (fun d e => if e.1 ≠ "" ∧ e.2 ≠ "" then dinsert d e.1 e.2 else d) []

/-- The timestamp of `_extract_process_data`:
`ts_elem.get("SystemTime", "")[:19] if ts_elem is not None else ""`. -/
def evtxTimestamp (u : EvtxUnit) : String :=
  match u.systemTime with
  | none => ""
  | some s => strTake s 19

/-- is the backslash character. -/
def bslash : Char := '\\'

/-- The display name: `image.split("\\")[-1] if "\\" in image else image`. -/
def displayName (image : String) : String :=
  if containsChar image bslash then ⟨(splitOnChar bslash image.data).getLastD image.data⟩
  else image

/-- `_extract_process_data` (sysmon2tree.py lines 91-119): builds the
field dict, computes the timestamp, converts `ProcessId` (absent defaults
to the integer `0`), and — only when `pid > 0` — converts
`ParentProcessId` (falsy source values give `None`), derives the name and
stores a fresh `ProcessInfo` under `pid`.  `none` models both a rejected
pid and a `ValueError` from `int(...)`, which the bare `except` turns
into "nothing inserted". -/
def extractEvtx (u : EvtxUnit) : Option (Int × ProcessInfo) :=
  match decodePid (evtxData u) with
  | none => none
  | some pid =>
    if pid > 0 then
      match decodePpid (evtxData u) with
      | none => none
      | some ppid =>
        some (pid, { pid := pid,
                     name := displayName ((dget (evtxData u) "Image").getD "Unknown"),
                     ppid := ppid,
                     command_line := (dget (evtxData u) "CommandLine").getD "",
                     current_directory := (dget (evtxData u) "CurrentDirectory").getD "",
                     user := (dget (evtxData u) "User").getD "",
                     timestamp := evtxTimestamp u, children := [] })
    else none

/-- One CSV row as seen by `parse_csv`: the `EventId` column (`""` for a
missing column), whether `json.loads` of the `Payload` column succeeds,
the `(@Name, #text)` item pairs of `EventData.Data`, and the `UserName`
and `TimeCreated` columns (`""` for missing, which Python treats like
empty). -/
structure CsvRow where
  eventId : String
  payloadOk : Bool
  payloadItems : List (String × String)
  userName : String
  timeCreated : String
deriving Repr, DecidableEq

/-- The `data` dict of `_extract_process_from_row`: items with truthy
`@Name` (the text may be empty), later entries overwriting earlier ones. -/
def csvData (row : CsvRow) : List (String × String) :=
  row.payloadItems.foldl (fun d e => if e.1 ≠ "" then dinsert d e.1 e.2 else d) []

/-- `_extract_process_from_row` (sysmon_csv_tree.py lines 72-115): parses
the payload, converts `ProcessId` (absent defaults to `0`), returns
early when `pid <= 0`, converts `ParentProcessId` (falsy source values
give `None`), derives name, user (falling back to the `UserName` column)
and timestamp, and stores a fresh `ProcessInfo` under `pid`.  `none`
models a rejected pid and any exception swallowed by the handler. -/
def extractCsv (row : CsvRow) : Option (Int × ProcessInfo) :=
  if ¬ row.payloadOk then none
  else
    match decodePid (csvData row) with
    | none => none
    | some pid =>
      if pid ≤ 0 then none
      else
        match decodePpid (csvData row) with
        | none => none
        | some ppid =>
          some (pid, { pid := pid,
                       name := displayName ((dget (csvData row) "Image").getD "Unknown"),
                       ppid := ppid,
                       command_line := (dget (csvData row) "CommandLine").getD "",
                       current_directory := (dget (csvData row) "CurrentDirectory").getD "",
                       user := (dget (csvData row) "User").getD row.userName,
                       timestamp := if row.timeCreated = "" then ""
                                    else strTake row.timeCreated 19,
                       children := [] })

/-! ## The two ingestion loops -/

/-- The body of the `parse_evtx` loop for one unit, acting on
`(self.processes, self.process_events)`: skip on `ET.ParseError`, skip
units whose `EventID` text is not `"1"`, otherwise run the extractor and
increment `self.process_events` — the increment happens whether or not
the extractor inserted anything. -/
def stepEvtx (s : Reg × Nat) (u : EvtxUnit) : Reg × Nat :=
  if ¬ u.parseOk then s
  else if u.eventId ≠ some "1" then s
  else
    (match extractEvtx u with
     | some kv => dinsert s.1 kv.1 kv.2
     | none => s.1,
     s.2 + 1)

/-- The body of the `parse_csv` loop for one row: skip rows whose
`EventId` is not `"1"`, otherwise run the extractor;
`self.process_events` is incremented inside the extractor, only after a
successful insertion. -/
def stepCsv (s : Reg × Nat) (row : CsvRow) : Reg × Nat :=
  if row.eventId ≠ "1" then s
  else
    match extractCsv row with
    | some kv => (dinsert s.1 kv.1 kv.2, s.2 + 1)
    | none => s

/-- The cap test `if max_events and event_count > max_events: break`:
Python truthiness makes a cap of `0` (or `None`) never fire. -/
def capHit (cap : Option Int) (total : Nat) : Bool :=
  match cap with
  | none => false
  | some c => c ≠ 0 && (total : Int) > c

/-- The shared shape of both ingestion loops: per unit, increment the
total-events counter, break when the cap fires, otherwise run the step. -/
def runLoop {α : Type} (step : Reg × Nat → α → Reg × Nat) (cap : Option Int) :
    Nat → Reg × Nat → List α → Nat × Reg × Nat
  | total, s, [] => (total, s.1, s.2)
  | total, s, u :: rest =>
    let total' := total + 1
    if capHit cap total' then (total', s.1, s.2)
    else runLoop step cap total' (step s u) rest

/-- The final state of a parse run: `self.total_events`,
`self.processes` and `self.process_events`. -/
structure ParseResult where
  total_events : Nat
  processes : Reg
  process_events : Nat
deriving Repr, DecidableEq

/-- `SysmonParser.parse_evtx(file, max_events)`: run the loop over the
decoded units, then `_build_tree`. -/
def parseEvtx (cap : Option Int) (units : List EvtxUnit) : ParseResult :=
  { total_events := (runLoop stepEvtx cap 0 ([], 0) units).1,
    processes := buildTree (runLoop stepEvtx cap 0 ([], 0) units).2.1,
    process_events := (runLoop stepEvtx cap 0 ([], 0) units).2.2 }

/-- `SysmonCSVParser.parse_csv(file, max_events)`: run the loop over the
rows, then `_build_tree`. -/
def parseCsv (cap : Option Int) (rows : List CsvRow) : ParseResult :=
  { total_events := (runLoop stepCsv cap 0 ([], 0) rows).1,
    processes := buildTree (runLoop stepCsv cap 0 ([], 0) rows).2.1,
    process_events := (runLoop stepCsv cap 0 ([], 0) rows).2.2 }

/-! ## The renderer (`_gen_proc_html` / `_gen_tree_html`) -/

/-- `mapM` over `Option`, written recursively so proofs and kernel
evaluation are direct. -/
def mapMOpt {α β : Type} (f : α → Option β) : List α → Option (List β)
  | [] => some []
  | x :: xs =>
    match f x, mapMOpt f xs with
    | some y, some ys => some (y :: ys)
    | _, _ => none

/-- `proc.ppid or "ROOT"`: Python truthiness shows `ROOT` for both
`None` and `0`. -/
def ppidOrRoot (p : Option Int) : String :=
  match p with
  | none => "ROOT"
  | some q => if q = 0 then "ROOT" else toString q

/-- Child resolution in `_gen_proc_html`:
`[self.processes[c] for c in proc.children if c in self.processes]`. -/
def resolveChildren (m : Reg) (cs : List Int) : List ProcessInfo :=
  cs.filterMap (dget m)

/-- The sorted child list the renderer recurses over:
`children.sort(key=lambda x: x.timestamp)` after resolution. -/
def renderChildren (m : Reg) (proc : ProcessInfo) : List ProcessInfo :=
  sortByKey (fun x => x.timestamp) (resolveChildren m proc.children)

/-- `_gen_proc_html(proc)`: header line, details block, then the sorted
children rendered recursively.  The Python recursion carries no depth
bound; `fuel` bounds the recursion depth in this model and `none` means
the bound was hit, so `isSome` of a run expresses that the recursion
terminates within that depth. -/
def genProcHtml (m : Reg) : Nat → ProcessInfo → Option String
  | 0, _ => none
  | fuel + 1, proc =>
    let has_ch := proc.children.length > 0
    let tog := "<span class=\"toggle\">" ++ (if has_ch then "[+]" else "") ++ "</span>"
    let hdr := "<div class=\"process\"><div class=\"process-header\" onclick=\"toggleProcess(this)\">"
      ++ tog
      ++ "<span class=\"pid\">PID:" ++ toString proc.pid ++ "</span><span class=\"ppid\">| PPID:"
      ++ ppidOrRoot proc.ppid ++ "</span>"
      ++ "<span class=\"name\">| " ++ esc proc.name ++ "</span>"
      ++ (if has_ch then "<span style=\"color:#6c757d\">(" ++ toString proc.children.length
            ++ " children)</span>" else "")
      ++ "</div><div class=\"details\">"
      ++ (if proc.command_line ≠ "" then
            "<div class=\"detail-row\"><span class=\"detail-label\">CMD:</span>"
              ++ esc proc.command_line ++ "</div>" else "")
      ++ (if proc.current_directory ≠ "" then
            "<div class=\"detail-row\"><span class=\"detail-label\">DIR:</span>"
              ++ esc proc.current_directory ++ "</div>" else "")
      ++ (if proc.user ≠ "" then
            "<div class=\"detail-row\"><span class=\"detail-label\">USER:</span>"
              ++ esc proc.user ++ "</div>" else "")
      ++ (if proc.timestamp ≠ "" then
            "<div class=\"detail-row\"><span class=\"detail-label\">TIME:</span>"
              ++ proc.timestamp ++ "</div>" else "")
      ++ "</div>"
    if has_ch then
      match mapMOpt (genProcHtml m fuel) (renderChildren m proc) with
      | none => none
      | some parts =>
        some (hdr ++ "<div class=\"children\">" ++ String.join parts ++ "</div></div>")
    else some (hdr ++ "</div>")

/-- `_gen_tree_html(roots)`: the concatenation of the rendered roots.
The fuel `m.length + 1` strictly exceeds the length of any simple
root-to-node path, so a `some` result is exactly termination of the
unbounded Python recursion. -/
def genTreeHtml (m : Reg) : Option String :=
  (mapMOpt (genProcHtml m (m.length + 1)) (get_root_processes m)).map String.join

/-- The key trace of the renderer's depth-first walk: the dict keys of
the nodes `_gen_proc_html` visits below the key `k`, in visit order. -/
def walkKey (m : Reg) : Nat → Int → List Int
  | 0, _ => []
  | fuel + 1, k =>
    match dget m k with
    | none => [k]
    | some proc =>
      k :: (sortByKey (fun e => e.2.timestamp)
              (proc.children.filterMap (fun c => (dget m c).map (fun rc => (c, rc))))).flatMap
            (fun e => walkKey m fuel e.1)

/-- The keys of all nodes the rendered document contains: the walk
started from every root entry, roots in rendered order. -/
def renderedKeys (m : Reg) : List Int :=
  (sortByKey (fun e => e.2.timestamp) (m.filter (fun e => rootCond m e.2))).flatMap
    (fun e => walkKey m (m.length + 1) e.1)

/-- A whole sequence of insertions `self.processes[pid] = record`, in
input order, starting from the empty registry. -/
def insertAll (rs : List ProcessInfo) : Reg :=
  rs.foldl (fun m r => dinsert m r.pid r) []

/-! ## Paths of the renderer's recursion -/

/-- A root-to-node path of the renderer's depth-first walk over the
built registry: `RPath m k ks` says the walk can reach the entry with
key `k` along the key path `ks` (current node first, root last).  A step
into `c` exists exactly when `_build_tree` appended `c` to the current
node's child list, i.e. when the record at `c` has a truthy ppid equal
to the current key. -/
inductive RPath (m : Reg) : Int → List Int → Prop
  | root (k : Int) (r : ProcessInfo) : (k, r) ∈ m → rootCond m r = true → RPath m k [k]
  | step (k : Int) (ks : List Int) (c : Int) (rc : ProcessInfo) :
      RPath m k ks → (c, rc) ∈ m → truthyPpid rc = some k → RPath m c (c :: ks)

/-- Every entry's stored child list agrees with `childrenOf`: the state
`_build_tree` leaves the registry in. -/
def ChildrenCoherent (m : Reg) : Prop :=
  ∀ e ∈ m, e.2.children = childrenOf m e.1

/-- A parent-pointer cycle wholly inside the registry: every member key
is present and every record stored at a member key has its `ppid` equal
to some member key. -/
def CycleSet (m : Reg) (C : List Int) : Prop :=
  ∀ k ∈ C, k ∈ dkeys m ∧ ∀ r : ProcessInfo, (k, r) ∈ m → ∃ j ∈ C, r.ppid = some j

/-! ## Concrete inputs used to exercise the definitions -/

/-- An EVTX EventID=1 unit with no `ProcessId` field at all. -/
def u2 : EvtxUnit :=
  { parseOk := true, eventId := some "1", dataElems := [], systemTime := none }

/-- A CSV EventID=1 row with no `ProcessId` field at all. -/
def row2 : CsvRow :=
  { eventId := "1", payloadOk := true, payloadItems := [], userName := "", timeCreated := "" }

/-- An EVTX EventID=1 unit whose `ParentProcessId` field is the string zero. -/
def u3 : EvtxUnit :=
  { parseOk := true, eventId := some "1",
    dataElems := [("ProcessId", "5"), ("ParentProcessId", "0")], systemTime := none }

/-- A CSV EventID=1 row whose `ParentProcessId` field is the string zero. -/
def row3 : CsvRow :=
  { eventId := "1", payloadOk := true,
    payloadItems := [("ProcessId", "5"), ("ParentProcessId", "0")],
    userName := "", timeCreated := "" }

/-- An EVTX EventID=1 unit with a pid and no `ParentProcessId` field. -/
def u3b : EvtxUnit :=
  { parseOk := true, eventId := some "1", dataElems := [("ProcessId", "5")],
    systemTime := none }

/-- The record `u3b` decodes to. -/
def rec3b : ProcessInfo :=
  { pid := 5, name := "Unknown", ppid := none, command_line := "",
    current_directory := "", user := "", timestamp := "", children := [] }

/-- A parent record and three children whose timestamps are
`t1 < t3` with `t2` empty, inserted in the order `t1, t2, t3`. -/
def p6 : ProcessInfo := ⟨1, "parent", none, "", "", "", "2024-01-01T00:00:00", []⟩

/-- Child with timestamp `t1`. -/
def c6a : ProcessInfo := ⟨2, "a", some 1, "", "", "", "2024-01-01T00:00:01", []⟩

/-- Child with empty timestamp `t2`. -/
def c6b : ProcessInfo := ⟨3, "b", some 1, "", "", "", "", []⟩

/-- Child with timestamp `t3`. -/
def c6c : ProcessInfo := ⟨4, "c", some 1, "", "", "", "2024-01-01T00:00:03", []⟩

/-- The built registry of the `p6` family. -/
def reg6 : Reg := buildTree (insertAll [p6, c6a, c6b, c6c])

/-- Two records forming a parent-pointer two-cycle (1 ↔ 2). -/
def p7a : ProcessInfo := ⟨1, "a", some 2, "", "", "", "", []⟩

/-- Second member of the two-cycle. -/
def p7b : ProcessInfo := ⟨2, "b", some 1, "", "", "", "", []⟩

/-- Three qualifying CSV rows with distinct pids, for the cap scenario. -/
def row8a : CsvRow := ⟨"1", true, [("ProcessId", "10")], "", ""⟩

/-- Second qualifying row of the cap scenario. -/
def row8b : CsvRow := ⟨"1", true, [("ProcessId", "20")], "", ""⟩

/-- Third qualifying row of the cap scenario. -/
def row8c : CsvRow := ⟨"1", true, [("ProcessId", "30")], "", ""⟩

/-- Cycle member (1 points to 2) together with `p9b`, plus a free root. -/
def p9a : ProcessInfo := ⟨1, "a", some 2, "", "", "", "", []⟩

/-- Cycle member (2 points back to 1). -/
def p9b : ProcessInfo := ⟨2, "b", some 1, "", "", "", "", []⟩

/-- An ordinary root record next to the cycle. -/
def p9c : ProcessInfo := ⟨3, "c", none, "", "", "", "", []⟩

/-- The registry holding the 1 ↔ 2 cycle and the root 3. -/
def m9 : Reg := insertAll [p9a, p9b, p9c]

/-! ## Basic dict lemmas -/

@[simp] theorem dkeys_nil {α β : Type} : dkeys ([] : List (α × β)) = [] := rfl

@[simp] theorem dkeys_cons {α β : Type} (e : α × β) (m : List (α × β)) :
    dkeys (e :: m) = e.1 :: dkeys m := rfl

theorem dget_dinsert {α β : Type} [DecidableEq α] (m : List (α × β)) (k q : α) (v : β) :
    dget (dinsert m k v) q = if q = k then some v else dget m q := by
  induction m with
  | nil =>
    rcases eq_or_ne q k with h | h
    · simp [dinsert, dget, h]
    · simp [dinsert, dget, h, Ne.symm h]
  | cons e rest ih =>
    rcases eq_or_ne e.1 k with h1 | h1
    · have heq : dinsert (e :: rest) k v = (k, v) :: rest := by simp [dinsert, h1]
      rw [heq]
      rcases eq_or_ne q k with h2 | h2
      · simp [dget, h2]
      · simp [dget, h2, Ne.symm h2, h1]
    · have heq : dinsert (e :: rest) k v = e :: dinsert rest k v := by simp [dinsert, h1]
      rw [heq]
      rcases eq_or_ne q e.1 with h2 | h2
      · have hqk : q ≠ k := h2 ▸ h1
        simp [dget, h2.symm, hqk]
      · simp [dget, Ne.symm h2, ih]

theorem mem_dkeys_dinsert {α β : Type} [DecidableEq α] (m : List (α × β)) (k q : α) (v : β) :
    q ∈ dkeys (dinsert m k v) ↔ q = k ∨ q ∈ dkeys m := by
  induction m with
  | nil => simp [dinsert]
  | cons e rest ih =>
    rcases eq_or_ne e.1 k with h | h
    · have heq : dinsert (e :: rest) k v = (k, v) :: rest := by simp [dinsert, h]
      rw [heq]
      simp [h]
    · have heq : dinsert (e :: rest) k v = e :: dinsert rest k v := by simp [dinsert, h]
      rw [heq]
      simp [ih]
      tauto

theorem nodup_dkeys_dinsert {α β : Type} [DecidableEq α] (m : List (α × β)) (k : α) (v : β)
    (h : (dkeys m).Nodup) : (dkeys (dinsert m k v)).Nodup := by
  induction m with
  | nil => simp [dinsert]
  | cons e rest ih =>
    simp at h
    rcases eq_or_ne e.1 k with h1 | h1
    · have heq : dinsert (e :: rest) k v = (k, v) :: rest := by simp [dinsert, h1]
      rw [heq]
      simp
      exact ⟨fun hk => h.1 (by rw [h1]; exact hk), h.2⟩
    · have heq : dinsert (e :: rest) k v = e :: dinsert rest k v := by simp [dinsert, h1]
      rw [heq]
      simp
      refine ⟨fun hq => ?_, ih h.2⟩
      rcases (mem_dkeys_dinsert rest k e.1 v).1 hq with h2 | h2
      · exact h1 h2
      · exact h.1 h2

theorem dget_mem {α β : Type} [DecidableEq α] {m : List (α × β)} {k : α} {v : β}
    (h : dget m k = some v) : (k, v) ∈ m := by
  induction m with
  | nil => simp [dget] at h
  | cons e rest ih =>
    rcases eq_or_ne e.1 k with h1 | h1
    · have h2 : e.2 = v := by simpa [dget, h1] using h
      exact List.mem_cons.2 (Or.inl (by rw [Prod.ext_iff]; exact ⟨h1.symm, h2.symm⟩))
    · simp [dget, h1] at h
      exact List.mem_cons.2 (Or.inr (ih h))

theorem dget_isSome_of_mem_dkeys {α β : Type} [DecidableEq α] {m : List (α × β)} {k : α}
    (h : k ∈ dkeys m) : (dget m k).isSome := by
  induction m with
  | nil => simp at h
  | cons e rest ih =>
    rcases eq_or_ne e.1 k with h1 | h1
    · simp [dget, h1]
    · simp at h
      rcases h with h | h
      · exact absurd h.symm h1
      · simpa [dget, h1] using ih h

theorem mem_dkeys_of_mem {α β : Type} {m : List (α × β)} {k : α} {v : β}
    (h : (k, v) ∈ m) : k ∈ dkeys m := by
  have := List.mem_map_of_mem Prod.fst h
  simpa [dkeys] using this

theorem dget_of_mem {α β : Type} [DecidableEq α] {m : List (α × β)} {k : α} {v : β}
    (hN : (dkeys m).Nodup) (h : (k, v) ∈ m) : dget m k = some v := by
  induction m with
  | nil => simp at h
  | cons e rest ih =>
    simp at hN
    rcases List.mem_cons.1 h with h1 | h1
    · rw [← h1]
      simp [dget]
    · have hk : k ∈ dkeys rest := mem_dkeys_of_mem h1
      have h1e : e.1 ≠ k := fun hek => hN.1 (by rw [hek]; exact hk)
      simp [dget, h1e]
      exact ih hN.2 h1

theorem mem_unique {α β : Type} [DecidableEq α] {m : List (α × β)} {k : α} {v v' : β}
    (hN : (dkeys m).Nodup) (h : (k, v) ∈ m) (h' : (k, v') ∈ m) : v = v' := by
  have hv := dget_of_mem hN h
  have hv' := dget_of_mem hN h'
  rw [hv] at hv'
  exact Option.some.inj hv'

/-! ## Order lemmas for the timestamp sort -/

theorem lexLt_iff_lt (a : List Char) : ∀ b, lexLt a b = true ↔ a < b := by
  induction a with
  | nil =>
    intro b
    cases b with
    | nil =>
      simp only [lexLt, Bool.false_eq_true, false_iff]
      exact fun h => List.Lex.not_nil_right _ _ h
    | cons y ys =>
      simp only [lexLt, true_iff]
      exact List.Lex.nil
  | cons x xs ih =>
    intro b
    cases b with
    | nil =>
      simp only [lexLt, Bool.false_eq_true, false_iff]
      exact fun h => List.Lex.not_nil_right _ _ h
    | cons y ys =>
      rcases lt_trichotomy x y with h | h | h
      · simp only [lexLt, h, if_true, true_iff]
        exact List.Lex.rel h
      · subst h
        simp only [lexLt, lt_irrefl, if_false, ih]
        constructor
        · exact fun hl => List.Lex.cons hl
        · intro hl
          cases hl with
          | cons hl' => exact hl'
          | rel hr => exact absurd hr (lt_irrefl x)
      · have hxy : ¬ x < y := not_lt_of_gt h
        simp only [lexLt, hxy, if_false, h, if_true, Bool.false_eq_true, false_iff]
        intro hl
        cases hl with
        | cons hl' => exact absurd h (lt_irrefl _)
        | rel hr => exact absurd hr hxy

theorem strLt_iff (a b : String) : strLt a b = true ↔ a < b := by
  rw [String.lt_iff_toList_lt]
  exact lexLt_iff_lt a.data b.data

theorem strLt_false_iff (a b : String) : strLt a b = false ↔ b ≤ a := by
  rw [← not_lt, ← strLt_iff]
  simp

theorem insSorted_perm {α : Type} (key : α → String) (x : α) (s : List α) :
    List.Perm (insSorted key x s) (x :: s) := by
  induction s with
  | nil => exact List.Perm.refl _
  | cons y ys ih =>
    by_cases h : strLt (key y) (key x) = true
    · simp only [insSorted, h, if_true]
      exact (ih.cons y).trans (List.Perm.swap x y ys)
    · have h' : strLt (key y) (key x) = false := by simpa using h
      simp [insSorted, h']

theorem sortByKey_perm {α : Type} (key : α → String) (l : List α) :
    List.Perm (sortByKey key l) l := by
  induction l with
  | nil => exact List.Perm.refl _
  | cons x xs ih =>
    exact (insSorted_perm key x (sortByKey key xs)).trans (ih.cons x)

theorem mem_sortByKey {α : Type} (key : α → String) (l : List α) (a : α) :
    a ∈ sortByKey key l ↔ a ∈ l :=
  (sortByKey_perm key l).mem_iff

theorem insSorted_sorted {α : Type} (key : α → String) (x : α) (s : List α)
    (hs : s.Pairwise (fun a b => key a ≤ key b)) :
    (insSorted key x s).Pairwise (fun a b => key a ≤ key b) := by
  induction s with
  | nil => simp [insSorted]
  | cons y ys ih =>
    rcases List.pairwise_cons.1 hs with ⟨hy, hys⟩
    by_cases h : strLt (key y) (key x) = true
    · simp only [insSorted, h, if_true]
      refine List.pairwise_cons.2 ⟨?_, ih hys⟩
      intro z hz
      have hz' := (insSorted_perm key x ys).mem_iff.1 hz
      rcases List.mem_cons.1 hz' with hz' | hz'
      · subst hz'
        exact le_of_lt ((strLt_iff _ _).1 h)
      · exact hy z hz' 
    · simp only [insSorted, h, if_false]
      refine List.pairwise_cons.2 ⟨?_, hs⟩
      intro z hz
      have hxy : key x ≤ key y := (strLt_false_iff _ _).1 (by simpa using h)
      rcases List.mem_cons.1 hz with hz | hz
      · subst hz
        exact hxy
      · exact le_trans hxy (hy z hz)

theorem sortByKey_sorted {α : Type} (key : α → String) (l : List α) :
    (sortByKey key l).Pairwise (fun a b => key a ≤ key b) := by
  induction l with
  | nil => simp [sortByKey]
  | cons x xs ih => exact insSorted_sorted key x _ ih

theorem insSorted_filter {α : Type} (key : α → String) (x : α) (s : List α) (t : String) :
    (insSorted key x s).filter (fun a => key a == t) =
      if key x = t then x :: s.filter (fun a => key a == t)
      else s.filter (fun a => key a == t) := by
  induction s with
  | nil =>
    by_cases hx : key x = t <;> simp [insSorted, hx]
  | cons y ys ih =>
    by_cases h : strLt (key y) (key x) = true
    · simp only [insSorted, h, if_true]
      by_cases hx : key x = t
      · have hy : ¬ key y = t := by
          intro hy
          have hlt : key y < key x := (strLt_iff _ _).1 h
          rw [hx, hy] at hlt
          exact lt_irrefl t hlt
        simp only [List.filter_cons, hx, if_true, ih]
        simp [hy, hx]
      · simp [List.filter_cons, ih, hx]
    · simp only [insSorted, h, if_false]
      by_cases hx : key x = t <;> simp [List.filter_cons, hx]

theorem sortByKey_filter {α : Type} (key : α → String) (l : List α) (t : String) :
    (sortByKey key l).filter (fun a => key a == t) = l.filter (fun a => key a == t) := by
  induction l with
  | nil => simp [sortByKey]
  | cons x xs ih =>
    show (insSorted key x (sortByKey key xs)).filter (fun a => key a == t) = _
    rw [insSorted_filter]
    by_cases hx : key x = t <;> simp [hx, ih, List.filter_cons]

/-! ## What the escaping chain computes -/

theorem replaceChar_append (c : Char) (r : List Char) (a b : List Char) :
    replaceChar c r (a ++ b) = replaceChar c r a ++ replaceChar c r b := by
  induction a with
  | nil => rfl
  | cons x xs ih => simp [replaceChar, ih]

theorem esc_chain (s : List Char) :
    replaceChar '"' "&quot;".data
        (replaceChar '>' "&gt;".data
          (replaceChar '<' "&lt;".data
            (replaceChar '&' "&amp;".data s)))
      = s.flatMap escEntity := by
  induction s with
  | nil => rfl
  | cons x xs ih =>
    have h1 : replaceChar '&' "&amp;".data (x :: xs)
        = (if x = '&' then "&amp;".data else [x]) ++ replaceChar '&' "&amp;".data xs := rfl
    rw [h1, replaceChar_append, replaceChar_append, replaceChar_append, ih]
    have h2 : (x :: xs).flatMap escEntity = escEntity x ++ xs.flatMap escEntity := rfl
    rw [h2]
    congr 1
    by_cases hA : x = '&'
    · subst hA
      decide
    · by_cases hL : x = '<'
      · subst hL
        decide
      · by_cases hG : x = '>'
        · subst hG
          decide
        · by_cases hQ : x = '"'
          · subst hQ
            decide
          · simp [replaceChar, escEntity, hA, hL, hG, hQ]

theorem esc_data (t : String) : (esc t).data = t.data.flatMap escEntity := by
  by_cases h : t = ""
  · subst h
    rfl
  · show (esc t).data = _
    unfold esc
    rw [if_neg h]
    exact esc_chain t.data

theorem escEntity_no_raw (c : Char) :
    '<' ∉ escEntity c ∧ '>' ∉ escEntity c ∧ '"' ∉ escEntity c := by
  by_cases hA : c = '&'
  · subst hA
    decide
  · by_cases hL : c = '<'
    · subst hL
      decide
    · by_cases hG : c = '>'
      · subst hG
        decide
      · by_cases hQ : c = '"'
        · subst hQ
          decide
        · simp [escEntity, hA, hL, hG, hQ]
          exact ⟨fun h => hL h.symm, fun h => hG h.symm, fun h => hQ h.symm⟩

/-! ## Structural lemmas about the built registry -/

theorem truthyPpid_eq_some {r : ProcessInfo} {k : Int} (h : truthyPpid r = some k) :
    r.ppid = some k ∧ k ≠ 0 := by
  unfold truthyPpid at h
  cases hp : r.ppid with
  | none => rw [hp] at h; simp at h
  | some q =>
    rw [hp] at h
    by_cases hq : q = 0
    · simp [hq] at h
    · simp [hq] at h
      exact ⟨congrArg some h, fun h0 => hq (h.trans h0)⟩

theorem rootCond_false_of_ppid_mem {m : Reg} {r : ProcessInfo} {j : Int}
    (hp : r.ppid = some j) (hj : j ∈ dkeys m) : rootCond m r = false := by
  rcases Option.isSome_iff_exists.1 (dget_isSome_of_mem_dkeys hj) with ⟨v, hv⟩
  simp [rootCond, hp, hv]

theorem childrenOf_mem {m : Reg} {k c : Int} :
    c ∈ childrenOf m k ↔ ∃ rc, (c, rc) ∈ m ∧ truthyPpid rc = some k := by
  unfold childrenOf
  rw [List.mem_filterMap]
  constructor
  · rintro ⟨e, he, hfe⟩
    by_cases ht : truthyPpid e.2 = some k
    · simp only [ht, if_true, Option.some.injEq] at hfe
      refine ⟨e.2, ?_, ht⟩
      have he2 : (c, e.2) = e := by rw [← hfe]
      rw [he2]
      exact he
    · simp [ht] at hfe
  · rintro ⟨rc, hmem, ht⟩
    exact ⟨(c, rc), hmem, by simp [ht]⟩

theorem childrenOf_buildTree (m : Reg) (k : Int) :
    childrenOf (buildTree m) k = childrenOf m k := by
  unfold childrenOf buildTree
  rw [List.filterMap_map]
  rfl

theorem dkeys_buildTree (m : Reg) : dkeys (buildTree m) = dkeys m := by
  simp only [dkeys, buildTree, List.map_map]
  rfl

theorem coherent_buildTree (m : Reg) : ChildrenCoherent (buildTree m) := by
  intro e he
  unfold buildTree at he
  rcases List.mem_map.1 he with ⟨e0, _, heq⟩
  rw [← heq]
  simp [childrenOf_buildTree]

/-! ## The walk of the renderer can never revisit a key on its path -/

theorem rpath_shape {m : Reg} {k : Int} {ks : List Int} (h : RPath m k ks) :
    ∃ t, ks = k :: t := by
  cases h with
  | root k r hm hr => exact ⟨[], rfl⟩
  | step k ks c rc hp hm ht => exact ⟨ks, rfl⟩

theorem rpath_mem_dkeys {m : Reg} {k : Int} {ks : List Int} (h : RPath m k ks) :
    ∀ x ∈ ks, x ∈ dkeys m := by
  induction h with
  | root k r hm hr =>
    intro x hx
    have hx' : x = k := by simpa using hx
    rw [hx']
    exact mem_dkeys_of_mem hm
  | step k ks c rc hp hm ht ih =>
    intro x hx
    rcases List.mem_cons.1 hx with hx | hx
    · rw [hx]
      exact mem_dkeys_of_mem hm
    · exact ih x hx

theorem rpath_endpoint_mem_dkeys {m : Reg} {k : Int} {ks : List Int} (h : RPath m k ks) :
    k ∈ dkeys m := by
  rcases rpath_shape h with ⟨t, ht⟩
  exact rpath_mem_dkeys h k (by rw [ht]; exact List.mem_cons_self k t)

theorem rpath_suffix {m : Reg} {k : Int} {ks : List Int} (h : RPath m k ks) :
    ∀ x ∈ ks, ∃ pre s, ks = pre ++ x :: s ∧ RPath m x (x :: s) := by
  induction h with
  | root k r hm hr =>
    intro x hx
    have hx' : x = k := by simpa using hx
    subst hx'
    exact ⟨[], [], rfl, RPath.root x r hm hr⟩
  | step k ks c rc hp hm ht ih =>
    intro x hx
    rcases List.mem_cons.1 hx with hx | hx
    · subst hx
      exact ⟨[], ks, rfl, RPath.step k ks x rc hp hm ht⟩
    · rcases ih x hx with ⟨pre, s, heq, hps⟩
      exact ⟨c :: pre, s, by rw [heq]; rfl, hps⟩

theorem rpath_det {m : Reg} (hN : (dkeys m).Nodup) {k : Int} {p : List Int}
    (h : RPath m k p) : ∀ q, RPath m k q → p = q := by
  induction h with
  | root k r hm hr =>
    intro q hq
    cases hq with
    | root k r' hm' hr' => rfl
    | step k' ks c rc hp hm' ht =>
      have hr2 : r = rc := mem_unique hN hm hm'
      rcases truthyPpid_eq_some ht with ⟨hpk, _⟩
      have hk' : k' ∈ dkeys m := rpath_endpoint_mem_dkeys hp
      have hfalse : rootCond m r = false := by
        rw [hr2]
        exact rootCond_false_of_ppid_mem hpk hk'
      rw [hr] at hfalse
      cases hfalse
  | step k ks c rc hp hm ht ih =>
    intro q hq
    cases hq with
    | root c r' hm' hr' =>
      have hr2 : rc = r' := mem_unique hN hm hm'
      rcases truthyPpid_eq_some ht with ⟨hpk, _⟩
      have hk : k ∈ dkeys m := rpath_endpoint_mem_dkeys hp
      have hfalse : rootCond m r' = false := by
        rw [← hr2]
        exact rootCond_false_of_ppid_mem hpk hk
      rw [hr'] at hfalse
      cases hfalse
    | step k2 ks2 c rc2 hp2 hm2 ht2 =>
      have hr2 : rc = rc2 := mem_unique hN hm hm2
      rcases truthyPpid_eq_some ht with ⟨hpk, _⟩
      rcases truthyPpid_eq_some ht2 with ⟨hpk2, _⟩
      rw [hr2, hpk2] at hpk
      have hkk : k2 = k := by injection hpk
      rw [hkk] at hp2
      rw [ih ks2 hp2]

theorem rpath_nodup {m : Reg} (hN : (dkeys m).Nodup) {k : Int} {ks : List Int}
    (h : RPath m k ks) : ks.Nodup := by
  induction h with
  | root k r hm hr => simp
  | step k ks c rc hp hm ht ih =>
    refine List.nodup_cons.2 ⟨?_, ih⟩
    intro hc
    rcases rpath_suffix hp c hc with ⟨pre, s, heq, hps⟩
    have hdet : c :: ks = c :: s :=
      rpath_det hN (RPath.step k ks c rc hp hm ht) (c :: s) hps
    have hks : ks = s := by injection hdet
    have hlen : ks.length = pre.length + s.length + 1 := by
      rw [heq]
      simp [List.length_append]
      omega
    rw [hks] at hlen
    omega

theorem rpath_length {m : Reg} (hN : (dkeys m).Nodup) {k : Int} {ks : List Int}
    (h : RPath m k ks) : ks.length ≤ m.length := by
  have h1 : ks.Nodup := rpath_nodup hN h
  have h2 : ks ⊆ dkeys m := fun x hx => rpath_mem_dkeys h x hx
  have h3 := (h1.subperm h2).length_le
  calc ks.length ≤ (dkeys m).length := h3
    _ = m.length := by simp [dkeys]

/-! ## Termination of the renderer within fuel `m.length + 1` -/

theorem mapMOpt_isSome {α β : Type} {f : α → Option β} {l : List α}
    (h : ∀ x ∈ l, (f x).isSome) : (mapMOpt f l).isSome := by
  induction l with
  | nil => rfl
  | cons x xs ih =>
    rcases Option.isSome_iff_exists.1 (h x (List.mem_cons_self x xs)) with ⟨y, hy⟩
    rcases Option.isSome_iff_exists.1 (ih (fun z hz => h z (List.mem_cons_of_mem x hz)))
      with ⟨ys, hys⟩
    simp [mapMOpt, hy, hys]

theorem renderChildren_mem {m : Reg} (hN : (dkeys m).Nodup) (hC : ChildrenCoherent m)
    {k : Int} {proc : ProcessInfo} (hm : (k, proc) ∈ m) {x : ProcessInfo}
    (hx : x ∈ renderChildren m proc) :
    ∃ c, (c, x) ∈ m ∧ truthyPpid x = some k := by
  unfold renderChildren at hx
  have hx1 : x ∈ resolveChildren m proc.children := (sortByKey_perm _ _).mem_iff.1 hx
  unfold resolveChildren at hx1
  rcases List.mem_filterMap.1 hx1 with ⟨c, hc, hdc⟩
  have hch : proc.children = childrenOf m k := hC (k, proc) hm
  rw [hch] at hc
  rcases childrenOf_mem.1 hc with ⟨rc, hrc, htr⟩
  have hcx : (c, x) ∈ m := dget_mem hdc
  have hxr : x = rc := mem_unique hN hcx hrc
  exact ⟨c, hcx, by rw [hxr]; exact htr⟩

theorem genProcHtml_isSome {m : Reg} (hN : (dkeys m).Nodup) (hC : ChildrenCoherent m) :
    ∀ (fuel : Nat) (k : Int) (proc : ProcessInfo) (ks : List Int),
      (k, proc) ∈ m → RPath m k ks → m.length + 1 ≤ fuel + ks.length →
      (genProcHtml m fuel proc).isSome := by
  intro fuel
  induction fuel with
  | zero =>
    intro k proc ks hm hp hlen
    have := rpath_length hN hp
    omega
  | succ fuel ih =>
    intro k proc ks hm hp hlen
    by_cases hch : proc.children.length > 0
    · have hall : ∀ x ∈ renderChildren m proc, (genProcHtml m fuel x).isSome := by
        intro x hx
        rcases renderChildren_mem hN hC hm hx with ⟨c, hcx, htr⟩
        have hstep : RPath m c (c :: ks) := RPath.step k ks c x hp hcx htr
        exact ih c x (c :: ks) hcx hstep (by simp; omega)
      rcases Option.isSome_iff_exists.1 (mapMOpt_isSome hall) with ⟨parts, hparts⟩
      simp only [genProcHtml, hch, if_true]
      rw [hparts]
      rfl
    · simp only [genProcHtml, hch, if_false]
      rfl

/-! ## The rendered keys are exactly walk-reachable keys -/

theorem walkKey_reaches {m : Reg} (hN : (dkeys m).Nodup) (hC : ChildrenCoherent m) :
    ∀ (fuel : Nat) (k : Int) (ks : List Int), RPath m k ks →
      ∀ x ∈ walkKey m fuel k, ∃ ks', RPath m x ks' := by
  intro fuel
  induction fuel with
  | zero =>
    intro k ks hp x hx
    simp [walkKey] at hx
  | succ fuel ih =>
    intro k ks hp x hx
    unfold walkKey at hx
    cases hd : dget m k with
    | none =>
      rw [hd] at hx
      have hx' : x = k := by simpa using hx
      rw [hx']
      exact ⟨ks, hp⟩
    | some proc =>
      rw [hd] at hx
      rcases List.mem_cons.1 hx with hx | hx
      · rw [hx]
        exact ⟨ks, hp⟩
      · rcases List.mem_flatMap.1 hx with ⟨e, he, hwe⟩
        have he1 : e ∈ proc.children.filterMap
            (fun c => (dget m c).map (fun rc => (c, rc))) :=
          (sortByKey_perm _ _).mem_iff.1 he
        rcases List.mem_filterMap.1 he1 with ⟨c, hc, hce⟩
        cases hdc : dget m c with
        | none => rw [hdc] at hce; simp at hce
        | some rc =>
          rw [hdc] at hce
          simp only [Option.map_some', Option.some.injEq] at hce
          have hkm : (k, proc) ∈ m := dget_mem hd
          have hch : proc.children = childrenOf m k := hC (k, proc) hkm
          rw [hch] at hc
          rcases childrenOf_mem.1 hc with ⟨rc', hrc', htr⟩
          have hrcm : (c, rc) ∈ m := dget_mem hdc
          have hre : rc = rc' := mem_unique hN hrcm hrc'
          have hstep : RPath m c (c :: ks) :=
            RPath.step k ks c rc hp hrcm (by rw [hre]; exact htr)
          have hwc : x ∈ walkKey m fuel c := by
            rw [← hce] at hwe
            exact hwe
          exact ih c (c :: ks) hstep x hwc

theorem renderedKeys_reach {m : Reg} (hN : (dkeys m).Nodup) (hC : ChildrenCoherent m)
    {x : Int} (hx : x ∈ renderedKeys m) : ∃ ks, RPath m x ks := by
  unfold renderedKeys at hx
  rcases List.mem_flatMap.1 hx with ⟨e, he, hwe⟩
  have he1 : e ∈ m.filter (fun e => rootCond m e.2) := (sortByKey_perm _ _).mem_iff.1 he
  rcases List.mem_filter.1 he1 with ⟨hem, her⟩
  have hroot : RPath m e.1 [e.1] := RPath.root e.1 e.2 hem her
  exact walkKey_reaches hN hC (m.length + 1) e.1 [e.1] hroot x hwe

/-! ## Cycles are unreachable -/

theorem rpath_avoid_cycle {m : Reg} {C : List Int} (hcy : CycleSet m C)
    {k : Int} {ks : List Int} (h : RPath m k ks) : k ∉ C := by
  induction h with
  | root k r hm hr =>
    intro hk
    rcases hcy k hk with ⟨hkm, hall⟩
    rcases hall r hm with ⟨j, hj, hpj⟩
    have hjm : j ∈ dkeys m := (hcy j hj).1
    have hfalse : rootCond m r = false := rootCond_false_of_ppid_mem hpj hjm
    rw [hr] at hfalse
    cases hfalse
  | step k ks c rc hp hm ht ih =>
    intro hc
    rcases hcy c hc with ⟨hcm, hall⟩
    rcases hall rc hm with ⟨j, hj, hpj⟩
    rcases truthyPpid_eq_some ht with ⟨hpk, hk0⟩
    rw [hpk] at hpj
    have hkj : k = j := by injection hpj
    exact ih (by rw [hkj]; exact hj)

/-! ## Membership in the root sequence -/

theorem mem_get_root_processes {m : Reg} {r : ProcessInfo} :
    r ∈ get_root_processes m ↔ r ∈ m.map Prod.snd ∧ rootCond m r = true := by
  unfold get_root_processes
  rw [mem_sortByKey, List.mem_filter]

/-! ## Last-write-wins registry lemmas -/

theorem insertAll_append (rs : List ProcessInfo) (r : ProcessInfo) :
    insertAll (rs ++ [r]) = dinsert (insertAll rs) r.pid r := by
  unfold insertAll
  rw [List.foldl_append]
  rfl

theorem insertAll_nodup (rs : List ProcessInfo) : (dkeys (insertAll rs)).Nodup := by
  induction rs using List.reverseRecOn with
  | nil => simp [insertAll]
  | append_singleton rs r ih =>
    rw [insertAll_append]
    exact nodup_dkeys_dinsert _ _ _ ih

theorem insertAll_dget (rs : List ProcessInfo) (p : Int) :
    dget (insertAll rs) p = (rs.filter (fun r => r.pid == p)).getLast? := by
  induction rs using List.reverseRecOn with
  | nil => simp [insertAll, dget]
  | append_singleton rs r ih =>
    rw [insertAll_append, dget_dinsert]
    rcases eq_or_ne p r.pid with h | h
    · simp [h, List.filter_append, List.getLast?_append]
    · simp [h, Ne.symm h, List.filter_append, ih]

theorem insertAll_mem_dkeys (rs : List ProcessInfo) (p : Int) :
    p ∈ dkeys (insertAll rs) ↔ ∃ r ∈ rs, r.pid = p := by
  induction rs using List.reverseRecOn with
  | nil => simp [insertAll]
  | append_singleton rs r ih =>
    rw [insertAll_append, mem_dkeys_dinsert]
    simp [ih]
    constructor
    · rintro (h | ⟨x, hx, hp⟩)
      · exact ⟨r, Or.inr rfl, h.symm⟩
      · exact ⟨x, Or.inl hx, hp⟩
    · rintro ⟨x, hx | hx, hp⟩
      · exact Or.inr ⟨x, hx, hp⟩
      · rw [hx] at hp
        exact Or.inl hp.symm

/-! ## Cap behaviour of the shared ingestion loop -/

theorem runLoop_cap_zero {α : Type} (step : Reg × Nat → α → Reg × Nat) :
    ∀ (units : List α) (total : Nat) (s : Reg × Nat),
      runLoop step (some 0) total s units = runLoop step none total s units := by
  intro units
  induction units with
  | nil => intro total s; rfl
  | cons u rest ih =>
    intro total s
    have h1 : capHit (some 0) (total + 1) = false := by simp [capHit]
    have h2 : capHit none (total + 1) = false := rfl
    simp only [runLoop, h1, h2, Bool.false_eq_true, if_false]
    exact ih _ _

theorem runLoop_cap_take {α : Type} (step : Reg × Nat → α → Reg × Nat) (n : Nat) (hn : 0 < n) :
    ∀ (units : List α) (total : Nat) (s : Reg × Nat),
      (runLoop step (some (n : Int)) total s units).2 =
        (runLoop step none total s (units.take (n - total))).2 := by
  intro units
  induction units with
  | nil => intro total s; simp [runLoop]
  | cons u rest ih =>
    intro total s
    by_cases hcap : total ≥ n
    · have h1 : capHit (some (n : Int)) (total + 1) = true := by
        simp [capHit]
        omega
      have h2 : n - total = 0 := by omega
      simp only [runLoop, h1, if_true, h2, List.take_zero]
    · have h1 : capHit (some (n : Int)) (total + 1) = false := by
        simp [capHit]
        omega
      have h2 : n - total = (n - (total + 1)) + 1 := by omega
      rw [h2]
      simp only [runLoop, h1, Bool.false_eq_true, if_false, List.take_succ_cons]
      have h3 : capHit none (total + 1) = false := rfl
      rw [h3]
      simp only [Bool.false_eq_true, if_false]
      exact ih (total + 1) (step s u)

/-! ## Decoder lemmas -/

theorem decodePpid_some_none_iff (data : List (String × String)) :
    decodePpid data = some none ↔
      (dget data "ParentProcessId" = none ∨ dget data "ParentProcessId" = some "") := by
  unfold decodePpid
  cases hd : dget data "ParentProcessId" with
  | none => simp
  | some s =>
    by_cases hs : s = ""
    · simp [hs]
    · show (if s = "" then some none else Option.map some (pyInt s)) = some none ↔ _
      rw [if_neg hs]
      constructor
      · intro h
        exfalso
        cases hp : pyInt s with
        | none => rw [hp] at h; simp at h
        | some v => rw [hp] at h; simp at h
      · intro h
        exfalso
        rcases h with h | h
        · simp at h
        · simp at h
          exact hs h

theorem extractEvtx_none_of_badpid {u : EvtxUnit}
    (h : decodePid (evtxData u) = none
      ∨ ∃ v, decodePid (evtxData u) = some v ∧ v ≤ 0) :
    extractEvtx u = none := by
  rcases h with h | ⟨v, hv, hv0⟩
  · simp only [extractEvtx, h]
  · simp only [extractEvtx, hv]
    rw [if_neg (by omega)]

theorem extractCsv_none_of_badpid {row : CsvRow}
    (h : decodePid (csvData row) = none
      ∨ ∃ v, decodePid (csvData row) = some v ∧ v ≤ 0) :
    extractCsv row = none := by
  by_cases hok : row.payloadOk = true
  · rcases h with h | ⟨v, hv, hv0⟩
    · simp only [extractCsv, hok, not_true, if_false, h]
    · simp only [extractCsv, hok, not_true, if_false, hv]
      rw [if_pos (by omega)]
  · simp only [extractCsv, hok]
    simp

theorem extractEvtx_ppid {u : EvtxUnit} {k : Int} {r : ProcessInfo}
    (h : extractEvtx u = some (k, r)) : decodePpid (evtxData u) = some r.ppid := by
  unfold extractEvtx at h
  cases hp : decodePid (evtxData u) with
  | none =>
    simp only [hp] at h
    exact Option.noConfusion h
  | some pid =>
    simp only [hp] at h
    by_cases hpos : pid > 0
    · rw [if_pos hpos] at h
      cases hq : decodePpid (evtxData u) with
      | none =>
        simp only [hq] at h
        exact Option.noConfusion h
      | some ppid =>
        simp only [hq, Option.some.injEq, Prod.mk.injEq] at h
        rw [← h.2]
    · rw [if_neg hpos] at h
      simp at h

theorem extractCsv_ppid {row : CsvRow} {k : Int} {r : ProcessInfo}
    (h : extractCsv row = some (k, r)) : decodePpid (csvData row) = some r.ppid := by
  unfold extractCsv at h
  by_cases hok : row.payloadOk = true
  · rw [if_neg (by simp [hok])] at h
    cases hp : decodePid (csvData row) with
    | none =>
      simp only [hp] at h
      exact Option.noConfusion h
    | some pid =>
      simp only [hp] at h
      by_cases hpos : pid ≤ 0
      · rw [if_pos hpos] at h
        simp at h
      · rw [if_neg hpos] at h
        cases hq : decodePpid (csvData row) with
        | none =>
          simp only [hq] at h
          exact Option.noConfusion h
        | some ppid =>
          simp only [hq, Option.some.injEq, Prod.mk.injEq] at h
          rw [← h.2]
  · rw [if_pos (by simp [hok])] at h
    simp at h

theorem rootCond_true_iff (m : Reg) (r : ProcessInfo) :
    rootCond m r = true ↔
      (r.ppid = none ∨ ∀ q, r.ppid = some q → dget m q = none) := by
  unfold rootCond
  cases hp : r.ppid with
  | none => simp
  | some q =>
    simp only [Option.isNone_iff_eq_none]
    constructor
    · intro h
      right
      intro q' hq'
      have hqq : q = q' := by injection hq'
      rw [← hqq]
      exact h
    · rintro (h | h)
      · exact Option.noConfusion h
      · exact h q rfl

/-! ## The claims -/

/-- C1, counterexample: the claim as stated is false — `_esc` does not
replace the apostrophe, so an apostrophe from a record's metadata
appears raw in the escaped output: `esc` maps a string containing an
apostrophe to itself. -/
theorem c1_counterexample :
    esc ("a" ++ String.singleton apos ++ "b") = "a" ++ String.singleton apos ++ "b"
      ∧ apos ∈ (esc ("a" ++ String.singleton apos ++ "b")).data := by
  decide

/-- C1 (amended): `_esc` replaces exactly four of the five reserved
characters — `&`, `<`, `>`, `"` — by their entities, character-wise, and
leaves every other character unchanged; hence no raw `<`, `>` or `"`
survives in an escaped value, but an apostrophe passes through raw. -/
theorem c1_esc_four_entities :
    ∀ t : String,
      (esc t).data = t.data.flatMap escEntity
      ∧ '<' ∉ (esc t).data ∧ '>' ∉ (esc t).data ∧ '"' ∉ (esc t).data
      ∧ (apos ∈ t.data → apos ∈ (esc t).data) := by
  intro t
  have hd := esc_data t
  refine ⟨hd, ?_, ?_, ?_, ?_⟩
  · rw [hd]
    intro hmem
    rcases List.mem_flatMap.1 hmem with ⟨a, _, hma⟩
    exact (escEntity_no_raw a).1 hma
  · rw [hd]
    intro hmem
    rcases List.mem_flatMap.1 hmem with ⟨a, _, hma⟩
    exact (escEntity_no_raw a).2.1 hma
  · rw [hd]
    intro hmem
    rcases List.mem_flatMap.1 hmem with ⟨a, _, hma⟩
    exact (escEntity_no_raw a).2.2 hma
  · intro hmem
    rw [hd]
    exact List.mem_flatMap.2 ⟨apos, hmem, by decide⟩

/-- C1, witness for the amended claim at a concrete input. -/
theorem c1_esc_four_entities_witness :
    apos ∈ (esc (String.singleton apos)).data :=
  (c1_esc_four_entities (String.singleton apos)).2.2.2.2 (by decide)

/-- C2, counterexample: the claim as stated is false for the EVTX
parser — a qualifying unit with no `ProcessId` field is rejected (the
registry stays empty) yet `process_events` is still incremented to 1. -/
theorem c2_counterexample :
    (parseEvtx none [u2]).processes = [] ∧ (parseEvtx none [u2]).process_events = 1 := by
  decide

/-- C2 (amended): a unit whose `ProcessId` is absent, non-numeric or ≤ 0
is never inserted (both extractors yield nothing) and no error is
surfaced; the CSV parser leaves `process_events` untouched for such a
unit, but the EVTX parser increments `process_events` for every parsed
EventID=1 unit even when the record is rejected, so there the rejection
is invisible even through the qualifying counter. -/
theorem c2_invalid_pid :
    (∀ (u : EvtxUnit) (m : Reg) (pe : Nat),
        u.parseOk = true → u.eventId = some "1" →
        (decodePid (evtxData u) = none ∨ ∃ v, decodePid (evtxData u) = some v ∧ v ≤ 0) →
        extractEvtx u = none ∧ stepEvtx (m, pe) u = (m, pe + 1))
    ∧ (∀ (row : CsvRow) (m : Reg) (pe : Nat),
        row.eventId = "1" →
        (decodePid (csvData row) = none ∨ ∃ v, decodePid (csvData row) = some v ∧ v ≤ 0) →
        extractCsv row = none ∧ stepCsv (m, pe) row = (m, pe)) := by
  constructor
  · intro u m pe hok hev hbad
    have hnone := extractEvtx_none_of_badpid hbad
    refine ⟨hnone, ?_⟩
    simp [stepEvtx, hok, hev, hnone]
  · intro row m pe hev hbad
    have hnone := extractCsv_none_of_badpid hbad
    refine ⟨hnone, ?_⟩
    simp [stepCsv, hev, hnone]

/-- C2, witness for the amended claim at concrete inputs. -/
theorem c2_invalid_pid_witness :
    stepEvtx ([], 0) u2 = ([], 1) ∧ stepCsv ([], 0) row2 = ([], 0) :=
  ⟨(c2_invalid_pid.1 u2 [] 0 rfl rfl (Or.inr ⟨0, rfl, by decide⟩)).2,
   (c2_invalid_pid.2 row2 [] 0 rfl (Or.inr ⟨0, rfl, by decide⟩)).2⟩

/-- C3, counterexample: the claim as stated is false — when the
`ParentProcessId` field holds the string `"0"`, both extractors store
`parentPid` as the present value `0`, not as absent. -/
theorem c3_counterexample :
    (extractEvtx u3).map (fun kv => kv.2.ppid) = some (some 0)
      ∧ (extractCsv row3).map (fun kv => kv.2.ppid) = some (some 0) := by
  decide

/-- C3 (amended): in a successfully decoded record, `parentPid` is
absent exactly when the source `ParentProcessId` field was missing or
empty (Python-falsy); a field holding the string `"0"` yields the
present value `0`. -/
theorem c3_ppid_absent_iff :
    (∀ (u : EvtxUnit) (k : Int) (r : ProcessInfo), extractEvtx u = some (k, r) →
        ((r.ppid = none ↔ (dget (evtxData u) "ParentProcessId" = none
            ∨ dget (evtxData u) "ParentProcessId" = some ""))
         ∧ (dget (evtxData u) "ParentProcessId" = some "0" → r.ppid = some 0)))
    ∧ (∀ (row : CsvRow) (k : Int) (r : ProcessInfo), extractCsv row = some (k, r) →
        ((r.ppid = none ↔ (dget (csvData row) "ParentProcessId" = none
            ∨ dget (csvData row) "ParentProcessId" = some ""))
         ∧ (dget (csvData row) "ParentProcessId" = some "0" → r.ppid = some 0))) := by
  constructor
  · intro u k r hx
    have hq := extractEvtx_ppid hx
    constructor
    · constructor
      · intro hnone
        rw [hnone] at hq
        exact (decodePpid_some_none_iff _).1 hq
      · intro hcond
        have hz := (decodePpid_some_none_iff (evtxData u)).2 hcond
        rw [hz] at hq
        exact (Option.some.inj hq).symm
    · intro h0
      have hz : decodePpid (evtxData u) = some (some 0) := by
        unfold decodePpid
        rw [h0]
        decide
      rw [hz] at hq
      exact (Option.some.inj hq).symm
  · intro row k r hx
    have hq := extractCsv_ppid hx
    constructor
    · constructor
      · intro hnone
        rw [hnone] at hq
        exact (decodePpid_some_none_iff _).1 hq
      · intro hcond
        have hz := (decodePpid_some_none_iff (csvData row)).2 hcond
        rw [hz] at hq
        exact (Option.some.inj hq).symm
    · intro h0
      have hz : decodePpid (csvData row) = some (some 0) := by
        unfold decodePpid
        rw [h0]
        decide
      rw [hz] at hq
      exact (Option.some.inj hq).symm

/-- C3, witness for the amended claim at a concrete input. -/
theorem c3_ppid_absent_iff_witness : rec3b.ppid = none :=
  ((c3_ppid_absent_iff.1 u3b 5 rec3b (by decide)).1).mpr (Or.inl (by decide))

/-- C4: a record is in the root sequence returned by
`get_root_processes` exactly when it is in the registry and its
`parentPid` is absent or matches no pid key of the final snapshot —
stated for every snapshot, hence independent of insertion order (the
link step changes no `ppid` and the root test reads nothing else). -/
theorem c4_root_iff (m : Reg) (r : ProcessInfo) :
    r ∈ get_root_processes m ↔
      (r ∈ m.map Prod.snd
        ∧ (r.ppid = none ∨ ∀ q, r.ppid = some q → dget m q = none)) := by
  rw [mem_get_root_processes, rootCond_true_iff]

/-- C5: after any sequence of insertions, the registry has one entry per
distinct pid, the entry under `p` is the last record inserted with pid
`p`, and a pid is present exactly when some inserted record carried it —
last-write-wins. -/
theorem c5_last_write_wins (rs : List ProcessInfo) :
    (dkeys (insertAll rs)).Nodup
    ∧ (∀ p : Int, dget (insertAll rs) p = (rs.filter (fun r => r.pid == p)).getLast?)
    ∧ (∀ p : Int, p ∈ dkeys (insertAll rs) ↔ ∃ r ∈ rs, r.pid = p) :=
  ⟨insertAll_nodup rs, fun p => insertAll_dget rs p, fun p => insertAll_mem_dkeys rs p⟩

/-- C6: the timestamp sort used for roots and for every child list is a
permutation, is ascending under lexicographic string comparison (with
the empty string least, so empty timestamps come first), and preserves
the relative registry order among equal timestamps (stability, stated
as preservation of each equal-timestamp subsequence); concretely, for a
parent whose children carry timestamps `t1`, `""`, `t3` with `t1 < t3`,
the renderer's sorted child order is the `""` child, then `t1`, then
`t3` (pids `[3, 2, 4]`). -/
theorem c6_sort_stable :
    (∀ l : List ProcessInfo, List.Perm (sortByKey (fun x => x.timestamp) l) l)
    ∧ (∀ l : List ProcessInfo,
        (sortByKey (fun x => x.timestamp) l).Pairwise (fun a b => a.timestamp ≤ b.timestamp))
    ∧ (∀ (l : List ProcessInfo) (t : String),
        (sortByKey (fun x => x.timestamp) l).filter (fun a => a.timestamp == t)
          = l.filter (fun a => a.timestamp == t))
    ∧ (∀ t : String, ("" : String) ≤ t)
    ∧ (dget reg6 1).map (fun p => (renderChildren reg6 p).map (fun c => c.pid))
        = some [3, 2, 4] := by
  refine ⟨fun l => sortByKey_perm _ l, fun l => sortByKey_sorted _ l,
    fun l t => sortByKey_filter _ l t, ?_, by decide⟩
  intro t
  by_contra hlt
  rw [not_le] at hlt
  rw [String.lt_iff_toList_lt] at hlt
  exact List.Lex.not_nil_right _ _ hlt

/-- C7: over the built registry, every path the renderer's depth-first
walk can follow from a root has pairwise-distinct keys — a pid already
on the current rendering path is never re-descended into, also under
cyclic parent data — and each path is no longer than the registry, so
the recursion depth is bounded and the rendering of the whole forest
terminates: the depth-bounded rendering model returns a value at depth
bound `|registry| + 1`. -/
theorem c7_no_revisit_terminates (m : Reg) (hN : (dkeys m).Nodup) :
    (∀ (k : Int) (ks : List Int), RPath (buildTree m) k ks →
        ks.Nodup ∧ ks.length ≤ (buildTree m).length)
    ∧ (genTreeHtml (buildTree m)).isSome := by
  have hN' : (dkeys (buildTree m)).Nodup := by
    rw [dkeys_buildTree]
    exact hN
  have hC := coherent_buildTree m
  constructor
  · intro k ks hp
    exact ⟨rpath_nodup hN' hp, rpath_length hN' hp⟩
  · unfold genTreeHtml
    have hsome : (mapMOpt (genProcHtml (buildTree m) ((buildTree m).length + 1))
        (get_root_processes (buildTree m))).isSome := by
      apply mapMOpt_isSome
      intro r hr
      rcases mem_get_root_processes.1 hr with ⟨hrm, hrc⟩
      rcases List.mem_map.1 hrm with ⟨e, hem, he2⟩
      have hpair : (e.1, r) ∈ buildTree m := by
        rw [← he2]
        exact hem
      have hroot : RPath (buildTree m) e.1 [e.1] := RPath.root e.1 r hpair hrc
      exact genProcHtml_isSome hN' hC ((buildTree m).length + 1) e.1 r [e.1] hpair hroot
        (by simp)
    rcases Option.isSome_iff_exists.1 hsome with ⟨parts, hparts⟩
    rw [hparts]
    rfl

/-- C7, witness: the cyclic pair 1 ↔ 2 still renders — the walk
terminates (on this input the forest is empty, since both records fail
the root test). -/
theorem c7_no_revisit_terminates_witness :
    (genTreeHtml (buildTree (insertAll [p7a, p7b]))).isSome :=
  (c7_no_revisit_terminates (insertAll [p7a, p7b]) (by decide)).2

/-- C8: with a positive cap `n`, a parse run has the same registry and
the same qualifying counter as the uncapped run over the first `n`
units, for both parsers — records inserted before the stop are retained;
concretely, with cap 2 and three qualifying rows only the first two pids
are registered, and pid 30 is absent from the registry and from the
root forest. -/
theorem c8_cap (n : Nat) (hn : 0 < n) :
    (∀ units : List EvtxUnit,
        (parseEvtx (some (n : Int)) units).processes
            = (parseEvtx none (units.take n)).processes
        ∧ (parseEvtx (some (n : Int)) units).process_events
            = (parseEvtx none (units.take n)).process_events)
    ∧ (∀ rows : List CsvRow,
        (parseCsv (some (n : Int)) rows).processes
            = (parseCsv none (rows.take n)).processes
        ∧ (parseCsv (some (n : Int)) rows).process_events
            = (parseCsv none (rows.take n)).process_events)
    ∧ ((parseCsv (some 2) [row8a, row8b, row8c]).processes
          = (parseCsv none [row8a, row8b]).processes
        ∧ dget (parseCsv (some 2) [row8a, row8b, row8c]).processes 30 = none
        ∧ ∀ r ∈ get_root_processes (parseCsv (some 2) [row8a, row8b, row8c]).processes,
            r.pid ≠ 30) := by
  refine ⟨?_, ?_, by decide⟩
  · intro units
    have h := runLoop_cap_take stepEvtx n hn units 0 ([], 0)
    rw [Nat.sub_zero] at h
    constructor
    · show buildTree (runLoop stepEvtx (some (n : Int)) 0 ([], 0) units).2.1
          = buildTree (runLoop stepEvtx none 0 ([], 0) (units.take n)).2.1
      rw [h]
    · show (runLoop stepEvtx (some (n : Int)) 0 ([], 0) units).2.2
          = (runLoop stepEvtx none 0 ([], 0) (units.take n)).2.2
      rw [h]
  · intro rows
    have h := runLoop_cap_take stepCsv n hn rows 0 ([], 0)
    rw [Nat.sub_zero] at h
    constructor
    · show buildTree (runLoop stepCsv (some (n : Int)) 0 ([], 0) rows).2.1
          = buildTree (runLoop stepCsv none 0 ([], 0) (rows.take n)).2.1
      rw [h]
    · show (runLoop stepCsv (some (n : Int)) 0 ([], 0) rows).2.2
          = (runLoop stepCsv none 0 ([], 0) (rows.take n)).2.2
      rw [h]

/-- C8, witness at the concrete scenario and cap value 2. -/
theorem c8_cap_witness :
    (parseCsv (some ((2 : Nat) : Int)) [row8a, row8b, row8c]).processes
      = (parseCsv none ([row8a, row8b, row8c].take 2)).processes :=
  ((c8_cap 2 (by decide)).2.1 [row8a, row8b, row8c]).1

/-- C9: the members of a parent-pointer cycle wholly contained in the
built registry never satisfy the root test — no cycle member's record is
in the root sequence — and no cycle member's key occurs among the keys
the renderer's depth-first walk visits, so the whole cycle is silently
omitted from the rendered report. -/
theorem c9_cycle_omitted (m : Reg) (C : List Int) (hN : (dkeys m).Nodup)
    (hcy : CycleSet (buildTree m) C) :
    ∀ k ∈ C, (∀ r : ProcessInfo, (k, r) ∈ buildTree m →
        r ∉ get_root_processes (buildTree m))
      ∧ k ∉ renderedKeys (buildTree m) := by
  intro k hk
  have hN' : (dkeys (buildTree m)).Nodup := by
    rw [dkeys_buildTree]
    exact hN
  have hC := coherent_buildTree m
  constructor
  · intro r hr hroot
    rcases mem_get_root_processes.1 hroot with ⟨_, hcond⟩
    rcases (hcy k hk).2 r hr with ⟨j, hj, hpj⟩
    have hjm : j ∈ dkeys (buildTree m) := (hcy j hj).1
    have hfalse := rootCond_false_of_ppid_mem hpj hjm
    rw [hcond] at hfalse
    cases hfalse
  · intro hkr
    rcases renderedKeys_reach hN' hC hkr with ⟨ks, hp⟩
    exact rpath_avoid_cycle hcy hp hk

/-- C9, witness: in the concrete registry with the cycle 1 ↔ 2 and an
ordinary root 3, neither cycle key is among the rendered keys. -/
theorem c9_cycle_omitted_witness :
    (1 : Int) ∉ renderedKeys (buildTree m9)
      ∧ (2 : Int) ∉ renderedKeys (buildTree m9) := by
  have hbt : buildTree m9 = [
      (1, ⟨1, "a", some 2, "", "", "", "", [2]⟩),
      (2, ⟨2, "b", some 1, "", "", "", "", [1]⟩),
      (3, ⟨3, "c", none, "", "", "", "", []⟩)] := by decide
  have hcy : CycleSet (buildTree m9) [1, 2] := by
    intro k hk
    simp at hk
    rcases hk with hk | hk <;> subst hk
    · refine ⟨by decide, ?_⟩
      intro r hr
      rw [hbt] at hr
      simp at hr
      subst hr
      exact ⟨2, by decide, rfl⟩
    · refine ⟨by decide, ?_⟩
      intro r hr
      rw [hbt] at hr
      simp at hr
      subst hr
      exact ⟨1, by decide, rfl⟩
  exact ⟨(c9_cycle_omitted m9 [1, 2] (by decide) hcy 1 (by decide)).2,
         (c9_cycle_omitted m9 [1, 2] (by decide) hcy 2 (by decide)).2⟩

/-- C10: a cap of 0 is Python-falsy in `if max_events and ...`, so it
never breaks the loop: both parsers process every input unit exactly as
with no cap at all. -/
theorem c10_cap_zero (units : List EvtxUnit) (rows : List CsvRow) :
    parseEvtx (some 0) units = parseEvtx none units
      ∧ parseCsv (some 0) rows = parseCsv none rows := by
  constructor
  · unfold parseEvtx
    rw [runLoop_cap_zero]
  · unfold parseCsv
    rw [runLoop_cap_zero]

/-- C4, witness: the ordinary root 3 of the cycle registry is in the
root sequence. -/
theorem c4_root_iff_witness :
    (⟨3, "c", none, "", "", "", "", []⟩ : ProcessInfo)
      ∈ get_root_processes (buildTree m9) :=
  (c4_root_iff (buildTree m9) ⟨3, "c", none, "", "", "", "", []⟩).mpr
    ⟨by decide, Or.inl rfl⟩

/-- C5, witness: inserting two records with the same pid leaves the
later one. -/
theorem c5_last_write_wins_witness :
    dget (insertAll [p7b, c6a]) 2 = some c6a :=
  ((c5_last_write_wins [p7b, c6a]).2.1 2).trans (by decide)

/-- C6, witness: the concrete rendered child order of the scenario. -/
theorem c6_sort_stable_witness :
    (dget reg6 1).map (fun p => (renderChildren reg6 p).map (fun c => c.pid))
      = some [3, 2, 4] :=
  c6_sort_stable.2.2.2.2

/-- C10, witness at a concrete row. -/
theorem c10_cap_zero_witness :
    parseCsv (some 0) [row8a] = parseCsv none [row8a] :=
  (c10_cap_zero [] [row8a]).2
